import Mathlib

/-!
Verification of the GeoJSON FeatureCollection decoding bridge of
src/deserialize.rs: the collection envelope decoder
(FeatureCollectionVisitor::visit_map), the per-feature schema decoder
(FeatureVisitor::visit_map), the geometry conversion adapter
(deserialize_geometry) and the streaming driver
(deserialize_collection_features_from_reader), embedded shallowly over the
parsed document tree value model.
-/

/-- Document tree value: the parsed-JSON value model (serde_json Value), a
tagged union over null, booleans, numbers, strings, arrays and key-ordered
objects. Number payloads are irrelevant to every property proved here and
are embedded as integers. -/
inductive JsonValue : Type where
  | null : JsonValue
  | boolean : Bool → JsonValue
  | number : Int → JsonValue
  | string : String → JsonValue
  | array : List JsonValue → JsonValue
  | object : List (String × JsonValue) → JsonValue

/-- The check the envelope decoder performs on the value of a "type" entry:
equality with the tree value String "FeatureCollection"
(src/deserialize.rs line 35). -/
def isFCString : JsonValue → Bool
  | JsonValue.string s => s == "FeatureCollection"
  | _ => false

/-- Whether a tree value is array-shaped. -/
def JsonValue.isArray : JsonValue → Bool
  | JsonValue.array _ => true
  | _ => false

/-- Loop of FeatureCollectionVisitor::visit_map (src/deserialize.rs lines
31 to 56): state is the has_feature_collection_type flag and the optionally
captured features array; entries are consumed in arrival order and the
first offending entry aborts with its error. The empty-list case is the
code after the loop (lines 58 to 66). -/
def featureCollectionLoop :
    Bool → Option (List JsonValue) → List (String × JsonValue) →
      Except String (List JsonValue)
  | hasType, features, [] =>
    match features with
    | some fs =>
      if hasType then Except.ok fs else Except.error "No `type` field was found"
    | none => Except.error "No `features` field was found"
  | hasType, features, (key, value) :: rest =>
    if key = "type" then
      if isFCString value then
        featureCollectionLoop true features rest
      else
        Except.error "invalid type for feature collection"
    else if key = "features" then
      match value with
      | JsonValue.array xs =>
        match features with
        | some _ => Except.error "Encountered more than one list of `features`"
        | none => featureCollectionLoop hasType (some xs) rest
      | _ => Except.error "`features` had unexpected value"
    else
      Except.error "foreign members are not handled by FeatureCollection deserializer"

/-- FeatureCollectionVisitor::visit_map entry point: runs the loop from the
initial state (no type confirmed, no features captured). -/
def FeatureCollectionVisitor.visit_map (entries : List (String × JsonValue)) :
    Except String (List JsonValue) :=
  featureCollectionLoop false none entries

/-- The per-feature field map: the HashMap from String to JsonValue built
by FeatureVisitor::visit_map, embedded as an association list whose keys
stay pairwise distinct (insertion replaces the binding of an existing
key). -/
abbrev FieldMap : Type := List (String × JsonValue)

/-- HashMap insert: replaces the value bound to an existing key, otherwise
appends the new binding. -/
def insertFM (m : FieldMap) (k : String) (v : JsonValue) : FieldMap :=
  if m.any (fun e => e.1 == k) then
    m.map (fun e => if e.1 == k then (k, v) else e)
  else
    m ++ [(k, v)]

/-- Flattening of a properties object onto the field map
(src/deserialize.rs lines 120 to 122): each key/value pair of the object
is inserted at top level, in object order. -/
def flattenProperties (m : FieldMap) (props : List (String × JsonValue)) : FieldMap :=
  props.foldl (fun acc e => insertFM acc e.1 e.2) m

/-- Outcome of computing one element of the per-feature sequence. The
crash variant embeds a Rust panic: FeatureVisitor::visit_map line 140
unwraps the nested decode of D with expect, so a decode failure of D
aborts the process instead of being returned as an error; the carried
string is the description of the decode failure. -/
inductive FeatureOutcome (D : Type) : Type where
  | ok : D → FeatureOutcome D
  | schemaErr : String → FeatureOutcome D
  | crash : String → FeatureOutcome D

/-- End of FeatureVisitor::visit_map once the type was confirmed
(src/deserialize.rs lines 139 to 140): the field map is handed to the
decode of D (hash_map.into_deserializer), and the result is unwrapped with
expect, so a successful decode yields the record while a decode failure
panics (crash). -/
def runDecode {D : Type} (decodeD : FieldMap → Except String D) (m : FieldMap) :
    FeatureOutcome D :=
  match decodeD m with
  | Except.ok d => FeatureOutcome.ok d
  | Except.error e => FeatureOutcome.crash e

/-- Loop of FeatureVisitor::visit_map (src/deserialize.rs lines 100 to
133): state is the has_feature_type flag and the field map under
construction; entries are consumed in arrival order and the first
offending entry aborts with its error. -/
def featureLoop :
    Bool → FieldMap → List (String × JsonValue) → Except String (Bool × FieldMap)
  | hasType, m, [] => Except.ok (hasType, m)
  | hasType, m, (key, value) :: rest =>
    if key = "type" then
      match value with
      | JsonValue.string s =>
        if s = "Feature" then featureLoop true m rest
        else Except.error "GeoJSON Feature had a `type` other than \"Feature\""
      | _ => Except.error "GeoJSON Feature had a `type` other than \"Feature\""
    else if key = "geometry" then
      match value with
      | JsonValue.object o =>
        featureLoop hasType (insertFM m "geometry" (JsonValue.object o)) rest
      | _ => Except.error "GeoJSON Feature had a unexpected geometry"
    else if key = "properties" then
      match value with
      | JsonValue.object props => featureLoop hasType (flattenProperties m props) rest
      | _ => Except.error "GeoJSON Feature had a unexpected geometry"
    else
      Except.error "foreign members are not handled by FeatureCollection deserializer"

/-- FeatureVisitor::visit_map (src/deserialize.rs lines 92 to 146),
generic over the decode of the target type D from the field map: runs the
entry loop, then, if the type was confirmed, hands the field map to the
decode of D (whose failure panics, see runDecode); otherwise reports the
missing-type schema error. -/
def FeatureVisitor.visit_map {D : Type} (decodeD : FieldMap → Except String D)
    (entries : List (String × JsonValue)) : FeatureOutcome D :=
  match featureLoop false [] entries with
  | Except.error e => FeatureOutcome.schemaErr e
  | Except.ok (hasType, m) =>
    if hasType then runDecode decodeD m
    else
      FeatureOutcome.schemaErr
        "A GeoJSON Feature must have a `type: \"Feature\"` field, but found none."

/-- One element of the returned sequence (the closure at
src/deserialize.rs lines 163 to 169): the buffered feature tree value is
re-entered as a map decode through FeatureVisitor; a non-object value
fails the way deserialize_map fails on a non-map input. -/
def decodeFeatureValue {D : Type} (decodeD : FieldMap → Except String D)
    (v : JsonValue) : FeatureOutcome D :=
  match v with
  | JsonValue.object entries => FeatureVisitor.visit_map decodeD entries
  | _ => FeatureOutcome.schemaErr "invalid type: expected a map"

/-- deserialize_collection_features_from_reader (src/deserialize.rs lines
149 to 170): the parsed top-level document is decoded once, eagerly, by
the envelope visitor; an envelope failure is returned as an immediate
error; on success one element per buffered raw feature value is produced
by decodeFeatureValue. -/
def deserialize_collection_features_from_reader {D : Type}
    (decodeD : FieldMap → Except String D) (doc : JsonValue) :
    Except String (List (FeatureOutcome D)) :=
  match doc with
  | JsonValue.object entries =>
    match FeatureCollectionVisitor.visit_map entries with
    | Except.error e => Except.error e
    | Except.ok features => Except.ok (features.map (decodeFeatureValue decodeD))
  | _ => Except.error "invalid type: expected a map"

/-- Operational model of a consumer pulling the returned sequence to
exhaustion: an element whose computation panics (crash) unwinds, so no
element after it is ever produced; ok and error elements are yielded and
iteration continues. -/
def pullSequence {D : Type} : List (FeatureOutcome D) → List (FeatureOutcome D)
  | [] => []
  | FeatureOutcome.ok d :: rest => FeatureOutcome.ok d :: pullSequence rest
  | FeatureOutcome.schemaErr e :: rest => FeatureOutcome.schemaErr e :: pullSequence rest
  | FeatureOutcome.crash e :: _ => [FeatureOutcome.crash e]

/-- Modelled from the spec: the canonical Geometry model is an external
collaborator of src/deserialize.rs (crate::Geometry lives in this
repository outside src/). The core treats it as an opaque value decodable
from an object-shaped tree value; only its decodability matters here. -/
structure Geometry : Type where
  members : List (String × JsonValue)

/-- Modelled from the spec: the decoding of the canonical Geometry model
from a document tree value (the Deserialize impl of crate::Geometry, in
this repository outside src/). Per the spec, a failure to decode a tree
value as a geometry is a schema error with the description
"unable to decode as geojson geometry"; success is modelled as accepting
any object-shaped tree value. -/
def Geometry.deserialize (v : JsonValue) : Except String Geometry :=
  match v with
  | JsonValue.object o => Except.ok (Geometry.mk o)
  | _ => Except.error "unable to decode as geojson geometry"

/-- deserialize_geometry (src/deserialize.rs lines 172 to 182), generic
over the fallible conversion from canonical Geometry to the caller type G:
step 1 decodes the tree value as a canonical Geometry, propagating the
decode failure unchanged; step 2 runs the conversion, wrapping its failure
description behind the prefix "unable to convert from geojson Geometry: ". -/
def deserialize_geometry {G : Type} (tryInto : Geometry → Except String G)
    (v : JsonValue) : Except String G :=
  match Geometry.deserialize v with
  | Except.error e => Except.error e
  | Except.ok g =>
    match tryInto g with
    | Except.ok x => Except.ok x
    | Except.error err =>
      Except.error ("unable to convert from geojson Geometry: " ++ err)

/-- Spec-side success condition for the collection envelope (section 4.1
of the spec, quoted by claim C2): every key is "type" or "features", every
"type" entry carries the string "FeatureCollection" and one occurs, every
"features" entry is array-shaped and exactly one occurs. -/
def envelopeOk (entries : List (String × JsonValue)) : Prop :=
  (∀ kv ∈ entries, kv.1 = "type" ∨ kv.1 = "features") ∧
  (∀ kv ∈ entries, kv.1 = "type" → isFCString kv.2 = true) ∧
  (∃ kv ∈ entries, kv.1 = "type") ∧
  (∀ kv ∈ entries, kv.1 = "features" → kv.2.isArray = true) ∧
  entries.countP (fun kv => kv.1 == "features") = 1

/-- Loop invariant generalizing envelopeOk to a mid-loop state of the
envelope decoder: the flag may already be set and the features array may
already be captured. -/
def fcLoopOk (hasType : Bool) (features : Option (List JsonValue))
    (entries : List (String × JsonValue)) : Prop :=
  (∀ kv ∈ entries, kv.1 = "type" ∨ kv.1 = "features") ∧
  (∀ kv ∈ entries, kv.1 = "type" → isFCString kv.2 = true) ∧
  (hasType = true ∨ ∃ kv ∈ entries, kv.1 = "type") ∧
  (∀ kv ∈ entries, kv.1 = "features" → kv.2.isArray = true) ∧
  entries.countP (fun kv => kv.1 == "features") +
    (if features.isSome then 1 else 0) = 1

/-- A minimal concrete target record decode: it requires a string bound to
the key "name", mirroring a derived struct with one required string
field. -/
def decodeName (m : FieldMap) : Except String String :=
  match m.lookup "name" with
  | some (JsonValue.string s) => Except.ok s
  | some _ => Except.error "invalid type for field `name`"
  | none => Except.error "missing field `name`"

/-- A caller geometry representation rejecting every canonical Geometry,
exercising the fallible conversion failure path of the adapter. -/
def tryIntoNone (_g : Geometry) : Except String Unit :=
  Except.error "only points are supported"

/-! Helper lemmas about the feature loop on type-only entry lists. -/

/-- Once the type flag is set, a run over entries that are all the pair
("type", "Feature") leaves the state untouched. -/
theorem featureLoop_all_type (entries : List (String × JsonValue))
    (hall : ∀ e ∈ entries, e = ("type", JsonValue.string "Feature")) (m : FieldMap) :
    featureLoop true m entries = Except.ok (true, m) := by
  induction entries with
  | nil => rfl
  | cons e rest ih =>
    have he : e = ("type", JsonValue.string "Feature") := hall e (List.mem_cons_self e rest)
    subst he
    have hrest : ∀ e ∈ rest, e = ("type", JsonValue.string "Feature") := by
      intro e hmem
      exact hall e (List.mem_cons_of_mem _ hmem)
    simpa [featureLoop] using ih hrest

/-- Claim C1: the spec says a failure of the decode of D from the field map is
returned to the caller as that element's error result, never turned into
an abort of the whole computation. The code (src/deserialize.rs line 140)
unwraps the nested decode with expect, so the failure aborts the process:
with a target requiring a field "name" and a feature that lacks it, the
outcome is a panic (crash), not an error result. -/
theorem feature_decode_failure_panics :
    FeatureVisitor.visit_map decodeName [("type", JsonValue.string "Feature")] =
      FeatureOutcome.crash "missing field `name`" := rfl

/-- Claim C3 counterexample: the claim says the overwrite of the geometry entry
by a same-named properties key happens regardless of the order in which
the feature keys arrive. With the properties entry arriving before the
geometry entry, the field map handed to the decode binds "geometry" to the
geometry entry value, not to the properties value. -/
theorem geometry_overwrite_order_cex :
    FeatureVisitor.visit_map (fun fm => Except.ok fm)
      [("type", JsonValue.string "Feature"),
       ("properties", JsonValue.object [("geometry", JsonValue.string "x")]),
       ("geometry", JsonValue.object [])] =
      FeatureOutcome.ok [("geometry", JsonValue.object [])] ∧
    JsonValue.object [] ≠ JsonValue.string "x" :=
  ⟨rfl, fun h => JsonValue.noConfusion h⟩

/-- Claim C3 amended: geometry and flattened properties are inserted into the
field map in entry arrival order and the later insertion wins: when the
geometry entry precedes the properties entry (the order the spec sentence
assumes), a properties key literally equal to "geometry" silently
overwrites the geometry entry; with the opposite arrival order the
geometry value overwrites the properties value. -/
theorem geometry_overwrite_follows_arrival_order
    (g : List (String × JsonValue)) (w : JsonValue) :
    FeatureVisitor.visit_map (fun fm => Except.ok fm)
      [("type", JsonValue.string "Feature"),
       ("geometry", JsonValue.object g),
       ("properties", JsonValue.object [("geometry", w)])] =
      FeatureOutcome.ok [("geometry", w)] ∧
    FeatureVisitor.visit_map (fun fm => Except.ok fm)
      [("type", JsonValue.string "Feature"),
       ("properties", JsonValue.object [("geometry", w)]),
       ("geometry", JsonValue.object g)] =
      FeatureOutcome.ok [("geometry", JsonValue.object g)] :=
  ⟨rfl, rfl⟩

/-- Claim C4: the spec says a failure computing the element for feature i never
prevents pulling and computing the element for feature i+1. The code
panics (src/deserialize.rs line 140) when the decode of D fails, so on a
collection whose first feature lacks the required property "name" the
consumer obtains the panic and the second element, although a plain
success, is never produced: pulling the sequence stops at the crash. -/
theorem driver_panic_truncates_sequence :
    deserialize_collection_features_from_reader decodeName
      (JsonValue.object
        [("type", JsonValue.string "FeatureCollection"),
         ("features", JsonValue.array
           [JsonValue.object [("type", JsonValue.string "Feature")],
            JsonValue.object
              [("type", JsonValue.string "Feature"),
               ("properties", JsonValue.object [("name", JsonValue.string "a")])]])]) =
      Except.ok
        [FeatureOutcome.crash "missing field `name`", FeatureOutcome.ok "a"] ∧
    pullSequence
      [FeatureOutcome.crash "missing field `name`", FeatureOutcome.ok "a"] =
      [FeatureOutcome.crash "missing field `name`"] :=
  ⟨rfl, rfl⟩

/-- Claim C9: the feature schema decoder never requires the keys "geometry" or
"properties": a feature whose entries all read ("type", "Feature")
validates successfully and the decode of D receives the empty field
map. -/
theorem type_only_feature_empty_field_map {D : Type}
    (decodeD : FieldMap → Except String D)
    (entries : List (String × JsonValue)) (hne : entries ≠ [])
    (hall : ∀ e ∈ entries, e = ("type", JsonValue.string "Feature")) :
    FeatureVisitor.visit_map decodeD entries = runDecode decodeD [] := by
  cases entries with
  | nil => exact absurd rfl hne
  | cons e rest =>
    have he : e = ("type", JsonValue.string "Feature") := hall e (List.mem_cons_self e rest)
    subst he
    have hrest : ∀ e ∈ rest, e = ("type", JsonValue.string "Feature") := by
      intro e hmem
      exact hall e (List.mem_cons_of_mem _ hmem)
    simp [FeatureVisitor.visit_map, featureLoop, featureLoop_all_type rest hrest]

/-- Witness for C9 at the one-entry feature, observed with the identity
decode: the field map handed over is empty. -/
theorem type_only_feature_empty_field_map_witness :
    FeatureVisitor.visit_map (fun fm => Except.ok fm)
      [("type", JsonValue.string "Feature")] =
      runDecode (fun fm => Except.ok fm) [] :=
  type_only_feature_empty_field_map (fun fm => Except.ok fm)
    [("type", JsonValue.string "Feature")] (by simp) (by simp)

/-- Helper for C10: with the type flag already set and no features
captured, any run of duplicate ("type", "FeatureCollection") entries
followed by a single features array succeeds with that array. -/
theorem fcLoop_replicate_type (fs : List JsonValue) :
    ∀ n : Nat,
      featureCollectionLoop true none
        (List.replicate n ("type", JsonValue.string "FeatureCollection") ++
          [("features", JsonValue.array fs)]) = Except.ok fs := by
  intro n
  induction n with
  | zero => rfl
  | succ k ih => simpa [List.replicate_succ, featureCollectionLoop, isFCString] using ih

/-- Claim C10: duplicate occurrences of keys other than the envelope "features"
are never rejected. Part one: the envelope decoder accepts any number of
("type", "FeatureCollection") entries. Part two: the feature decoder
accepts repeated ("type", "Feature") entries. Part three: a repeated
geometry entry replaces the earlier binding in the field map. Part four:
repeated properties entries are flattened in order, the later value
replacing the earlier one under the same key. -/
theorem duplicate_keys_tolerated :
    (∀ (n : Nat) (fs : List JsonValue),
      FeatureCollectionVisitor.visit_map
        (List.replicate (n + 1) ("type", JsonValue.string "FeatureCollection") ++
          [("features", JsonValue.array fs)]) = Except.ok fs) ∧
    (∀ n : Nat,
      FeatureVisitor.visit_map (fun fm => Except.ok fm)
        (List.replicate (n + 1) ("type", JsonValue.string "Feature")) =
        FeatureOutcome.ok []) ∧
    (∀ o1 o2 : List (String × JsonValue),
      FeatureVisitor.visit_map (fun fm => Except.ok fm)
        [("type", JsonValue.string "Feature"),
         ("geometry", JsonValue.object o1),
         ("geometry", JsonValue.object o2)] =
        FeatureOutcome.ok [("geometry", JsonValue.object o2)]) ∧
    (∀ (k : String) (v1 v2 : JsonValue),
      FeatureVisitor.visit_map (fun fm => Except.ok fm)
        [("type", JsonValue.string "Feature"),
         ("properties", JsonValue.object [(k, v1)]),
         ("properties", JsonValue.object [(k, v2)])] =
        FeatureOutcome.ok [(k, v2)]) := by
  refine ⟨?_, ?_, ?_, ?_⟩
  · intro n fs
    rw [FeatureCollectionVisitor.visit_map, List.replicate_succ]
    simpa [featureCollectionLoop, isFCString] using fcLoop_replicate_type fs n
  · intro n
    have hall : ∀ e ∈ List.replicate n ("type", JsonValue.string "Feature"),
        e = ("type", JsonValue.string "Feature") := by
      intro e hmem
      exact List.eq_of_mem_replicate hmem
    rw [List.replicate_succ]
    simp [FeatureVisitor.visit_map, featureLoop,
      featureLoop_all_type (List.replicate n ("type", JsonValue.string "Feature")) hall,
      runDecode]
  · intro o1 o2
    rfl
  · intro k v1 v2
    simp [FeatureVisitor.visit_map, featureLoop, flattenProperties, insertFM, runDecode]

/-- Claim C6: the geometry conversion adapter keeps its two failure modes
distinct. If the decode into the canonical Geometry model fails, that
schema error ("unable to decode as geojson geometry") is the result; if
the decode succeeds and the fallible conversion into G fails, the result
is an error prefixing the underlying conversion failure description with
"unable to convert from geojson Geometry: " — the description is never
swallowed. -/
theorem geometry_adapter_error_messages {G : Type}
    (tryInto : Geometry → Except String G) (v : JsonValue) :
    ((∀ g, Geometry.deserialize v ≠ Except.ok g) →
      deserialize_geometry tryInto v =
        Except.error "unable to decode as geojson geometry") ∧
    (∀ g c, Geometry.deserialize v = Except.ok g → tryInto g = Except.error c →
      deserialize_geometry tryInto v =
        Except.error ("unable to convert from geojson Geometry: " ++ c)) := by
  constructor
  · intro hfail
    cases hv : v with
    | object o => exact absurd rfl (hv ▸ hfail (Geometry.mk o))
    | null => rfl
    | boolean b => rfl
    | number q => rfl
    | string s => rfl
    | array xs => rfl
  · intro g c hdec hconv
    unfold deserialize_geometry
    rw [hdec]
    simp [hconv]

/-- Witness for C6: a null tree value fails step one with the schema
error; an object tree value decoding fine but rejected by a
points-only conversion fails step two with the prefixed description. -/
theorem geometry_adapter_error_messages_witness :
    deserialize_geometry tryIntoNone JsonValue.null =
      Except.error "unable to decode as geojson geometry" ∧
    deserialize_geometry tryIntoNone (JsonValue.object []) =
      Except.error
        ("unable to convert from geojson Geometry: " ++ "only points are supported") :=
  ⟨(geometry_adapter_error_messages tryIntoNone JsonValue.null).1
      (fun _g h => Except.noConfusion h),
   (geometry_adapter_error_messages tryIntoNone (JsonValue.object [])).2
      (Geometry.mk []) "only points are supported" rfl rfl⟩

/-! Characterization of the envelope decoder loop. -/

/-- Step lemma: a well-typed "type" entry leaves the success condition
equivalent to the one for the remaining entries with the flag set. -/
theorem fcLoopOk_cons_type (hasType : Bool) (features : Option (List JsonValue))
    (v : JsonValue) (rest : List (String × JsonValue)) (hfc : isFCString v = true) :
    fcLoopOk hasType features (("type", v) :: rest) ↔ fcLoopOk true features rest := by
  unfold fcLoopOk
  simp [List.countP_cons, hfc]

/-- Step lemma: a "type" entry whose value is not the string
"FeatureCollection" refutes the success condition. -/
theorem fcLoopOk_cons_type_bad (hasType : Bool) (features : Option (List JsonValue))
    (v : JsonValue) (rest : List (String × JsonValue)) (hfc : isFCString v = false) :
    ¬ fcLoopOk hasType features (("type", v) :: rest) := by
  unfold fcLoopOk
  intro h
  obtain ⟨-, h2, -, -, -⟩ := h
  have := h2 ("type", v) (List.mem_cons_self _ _) rfl
  rw [hfc] at this
  exact Bool.noConfusion this

/-- Step lemma: a first array-valued "features" entry moves the success
condition to the captured state. -/
theorem fcLoopOk_cons_features_arr (hasType : Bool) (xs : List JsonValue)
    (rest : List (String × JsonValue)) :
    fcLoopOk hasType none (("features", JsonValue.array xs) :: rest) ↔
      fcLoopOk hasType (some xs) rest := by
  unfold fcLoopOk
  constructor
  · rintro ⟨h1, h2, h3, h4, h5⟩
    refine ⟨fun kv hm => h1 kv (List.mem_cons_of_mem _ hm),
            fun kv hm hk => h2 kv (List.mem_cons_of_mem _ hm) hk, ?_,
            fun kv hm hk => h4 kv (List.mem_cons_of_mem _ hm) hk, ?_⟩
    · rcases h3 with ht | ⟨kv, hm, hk⟩
      · exact Or.inl ht
      · rcases List.mem_cons.mp hm with hh | hh
        · rw [hh] at hk
          simp at hk
        · exact Or.inr ⟨kv, hh, hk⟩
    · simp [List.countP_cons] at h5 ⊢
      exact h5
  · rintro ⟨h1, h2, h3, h4, h5⟩
    refine ⟨?_, ?_, ?_, ?_, ?_⟩
    · intro kv hm
      rcases List.mem_cons.mp hm with hh | hh
      · rw [hh]; exact Or.inr rfl
      · exact h1 kv hh
    · intro kv hm hk
      rcases List.mem_cons.mp hm with hh | hh
      · rw [hh] at hk
        simp at hk
      · exact h2 kv hh hk
    · rcases h3 with ht | ⟨kv, hm, hk⟩
      · exact Or.inl ht
      · exact Or.inr ⟨kv, List.mem_cons_of_mem _ hm, hk⟩
    · intro kv hm hk
      rcases List.mem_cons.mp hm with hh | hh
      · rw [hh]; rfl
      · exact h4 kv hh hk
    · simp [List.countP_cons] at h5 ⊢
      exact h5

/-- Step lemma: a second "features" entry refutes the success condition
once a features array was already captured. -/
theorem fcLoopOk_cons_features_dup (hasType : Bool) (ys : List JsonValue)
    (v : JsonValue) (rest : List (String × JsonValue)) :
    ¬ fcLoopOk hasType (some ys) (("features", v) :: rest) := by
  unfold fcLoopOk
  rintro ⟨-, -, -, -, h5⟩
  simp [List.countP_cons] at h5

/-- Step lemma: a non-array "features" entry refutes the success
condition. -/
theorem fcLoopOk_cons_features_bad (hasType : Bool)
    (features : Option (List JsonValue)) (v : JsonValue)
    (rest : List (String × JsonValue)) (hv : v.isArray = false) :
    ¬ fcLoopOk hasType features (("features", v) :: rest) := by
  unfold fcLoopOk
  rintro ⟨-, -, -, h4, -⟩
  have := h4 ("features", v) (List.mem_cons_self _ _) rfl
  rw [hv] at this
  exact Bool.noConfusion this

/-- Step lemma: a foreign key refutes the success condition. -/
theorem fcLoopOk_cons_foreign (hasType : Bool)
    (features : Option (List JsonValue)) (k : String) (v : JsonValue)
    (rest : List (String × JsonValue)) (hk : k ≠ "type") (hk2 : k ≠ "features") :
    ¬ fcLoopOk hasType features ((k, v) :: rest) := by
  unfold fcLoopOk
  rintro ⟨h1, -, -, -, -⟩
  rcases h1 (k, v) (List.mem_cons_self _ _) with h | h
  · exact hk h
  · exact hk2 h

/-- The envelope loop succeeds exactly on the states satisfying
fcLoopOk. -/
theorem fcLoop_ok_iff (entries : List (String × JsonValue)) :
    ∀ (hasType : Bool) (features : Option (List JsonValue)),
      (∃ fs, featureCollectionLoop hasType features entries = Except.ok fs) ↔
        fcLoopOk hasType features entries := by
  induction entries with
  | nil =>
    intro hasType features
    cases features with
    | none => simp [featureCollectionLoop, fcLoopOk]
    | some fs => cases hasType <;> simp [featureCollectionLoop, fcLoopOk]
  | cons kv0 rest ih =>
    obtain ⟨k, v⟩ := kv0
    intro hasType features
    by_cases hk : k = "type"
    · subst hk
      cases hfc : isFCString v with
      | true =>
        rw [show featureCollectionLoop hasType features (("type", v) :: rest) =
              featureCollectionLoop true features rest by
            simp [featureCollectionLoop, hfc]]
        rw [ih true features]
        exact (fcLoopOk_cons_type hasType features v rest hfc).symm
      | false =>
        refine iff_of_false ?_ (fcLoopOk_cons_type_bad hasType features v rest hfc)
        rintro ⟨fs, h⟩
        simp [featureCollectionLoop, hfc] at h
    · by_cases hk2 : k = "features"
      · subst hk2
        cases v with
        | array xs =>
          cases features with
          | none =>
            rw [show featureCollectionLoop hasType none
                  (("features", JsonValue.array xs) :: rest) =
                  featureCollectionLoop hasType (some xs) rest by
                simp [featureCollectionLoop]]
            rw [ih hasType (some xs)]
            exact (fcLoopOk_cons_features_arr hasType xs rest).symm
          | some ys =>
            refine iff_of_false ?_
              (fcLoopOk_cons_features_dup hasType ys (JsonValue.array xs) rest)
            rintro ⟨fs, h⟩
            simp [featureCollectionLoop] at h
        | null =>
          refine iff_of_false ?_
            (fcLoopOk_cons_features_bad hasType features JsonValue.null rest rfl)
          rintro ⟨fs, h⟩
          simp [featureCollectionLoop] at h
        | boolean b =>
          refine iff_of_false ?_
            (fcLoopOk_cons_features_bad hasType features (JsonValue.boolean b) rest rfl)
          rintro ⟨fs, h⟩
          simp [featureCollectionLoop] at h
        | number q =>
          refine iff_of_false ?_
            (fcLoopOk_cons_features_bad hasType features (JsonValue.number q) rest rfl)
          rintro ⟨fs, h⟩
          simp [featureCollectionLoop] at h
        | string s =>
          refine iff_of_false ?_
            (fcLoopOk_cons_features_bad hasType features (JsonValue.string s) rest rfl)
          rintro ⟨fs, h⟩
          simp [featureCollectionLoop] at h
        | object o =>
          refine iff_of_false ?_
            (fcLoopOk_cons_features_bad hasType features (JsonValue.object o) rest rfl)
          rintro ⟨fs, h⟩
          simp [featureCollectionLoop] at h
      · refine iff_of_false ?_
          (fcLoopOk_cons_foreign hasType features k v rest hk hk2)
        rintro ⟨fs, h⟩
        simp [featureCollectionLoop, hk, hk2] at h

/-- Once a features array is captured it is never replaced: a successful
run returns exactly the captured array. -/
theorem fcLoop_some_fixed (entries : List (String × JsonValue)) :
    ∀ (hasType : Bool) (xs fs : List JsonValue),
      featureCollectionLoop hasType (some xs) entries = Except.ok fs → fs = xs := by
  induction entries with
  | nil =>
    intro hasType xs fs h
    cases hasType with
    | true =>
      simp [featureCollectionLoop] at h
      exact h.symm
    | false => simp [featureCollectionLoop] at h
  | cons kv0 rest ih =>
    intro hasType xs fs h
    obtain ⟨k, v⟩ := kv0
    by_cases hk : k = "type"
    · subst hk
      cases hfc : isFCString v with
      | true =>
        exact ih true xs fs (by simpa [featureCollectionLoop, hfc] using h)
      | false => simp [featureCollectionLoop, hfc] at h
    · by_cases hk2 : k = "features"
      · subst hk2
        cases v with
        | array ys => simp [featureCollectionLoop] at h
        | null => simp [featureCollectionLoop] at h
        | boolean b => simp [featureCollectionLoop] at h
        | number q => simp [featureCollectionLoop] at h
        | string s => simp [featureCollectionLoop] at h
        | object o => simp [featureCollectionLoop] at h
      · simp [featureCollectionLoop, hk, hk2] at h

/-- Once a features array is captured, a successful run implies that no
further entry uses the key "features". -/
theorem fcLoop_some_no_features (entries : List (String × JsonValue)) :
    ∀ (hasType : Bool) (xs fs : List JsonValue),
      featureCollectionLoop hasType (some xs) entries = Except.ok fs →
        ∀ kv ∈ entries, kv.1 ≠ "features" := by
  induction entries with
  | nil =>
    intro hasType xs fs _ kv hmem
    exact absurd hmem (List.not_mem_nil kv)
  | cons kv0 rest ih =>
    intro hasType xs fs h kv hmem
    obtain ⟨k, v⟩ := kv0
    by_cases hk : k = "type"
    · subst hk
      cases hfc : isFCString v with
      | true =>
        rcases List.mem_cons.mp hmem with hh | hh
        · rw [hh]; simp
        · exact ih true xs fs (by simpa [featureCollectionLoop, hfc] using h) kv hh
      | false => simp [featureCollectionLoop, hfc] at h
    · by_cases hk2 : k = "features"
      · subst hk2
        cases v with
        | array ys => simp [featureCollectionLoop] at h
        | null => simp [featureCollectionLoop] at h
        | boolean b => simp [featureCollectionLoop] at h
        | number q => simp [featureCollectionLoop] at h
        | string s => simp [featureCollectionLoop] at h
        | object o => simp [featureCollectionLoop] at h
      · rcases List.mem_cons.mp hmem with hh | hh
        · rw [hh]; simpa using hk2
        · refine ih hasType xs fs ?_ kv hh
          simp [featureCollectionLoop, hk, hk2] at h

/-- On success, every "features" entry of the input carries exactly the
returned array. -/
theorem fcLoop_features_value (entries : List (String × JsonValue)) :
    ∀ (hasType : Bool) (features : Option (List JsonValue)) (fs : List JsonValue),
      featureCollectionLoop hasType features entries = Except.ok fs →
      ∀ kv ∈ entries, kv.1 = "features" → kv.2 = JsonValue.array fs := by
  induction entries with
  | nil =>
    intro _ _ _ _ kv hmem
    exact absurd hmem (List.not_mem_nil kv)
  | cons kv0 rest ih =>
    intro hasType features fs h kv hmem hkey
    obtain ⟨k, v⟩ := kv0
    by_cases hk : k = "type"
    · subst hk
      cases hfc : isFCString v with
      | true =>
        rcases List.mem_cons.mp hmem with hh | hh
        · rw [hh] at hkey; simp at hkey
        · exact ih true features fs
            (by simpa [featureCollectionLoop, hfc] using h) kv hh hkey
      | false => simp [featureCollectionLoop, hfc] at h
    · by_cases hk2 : k = "features"
      · subst hk2
        cases v with
        | array xs =>
          cases features with
          | none =>
            have h2 : featureCollectionLoop hasType (some xs) rest = Except.ok fs := by
              simpa [featureCollectionLoop] using h
            have hfs : fs = xs := fcLoop_some_fixed rest hasType xs fs h2
            subst hfs
            rcases List.mem_cons.mp hmem with hh | hh
            · rw [hh]
            · exact absurd hkey (fcLoop_some_no_features rest hasType fs fs h2 kv hh)
          | some ys => simp [featureCollectionLoop] at h
        | null => simp [featureCollectionLoop] at h
        | boolean b => simp [featureCollectionLoop] at h
        | number q => simp [featureCollectionLoop] at h
        | string s => simp [featureCollectionLoop] at h
        | object o => simp [featureCollectionLoop] at h
      · rcases List.mem_cons.mp hmem with hh | hh
        · rw [hh] at hkey; exact absurd hkey hk2
        · refine ih hasType features fs ?_ kv hh hkey
          simp [featureCollectionLoop, hk, hk2] at h

/-- Claim C2: the collection envelope decoder succeeds on a top-level entry
sequence exactly when every key is "type" or "features", every "type"
entry carries the string "FeatureCollection" and at least one occurs, and
exactly one "features" entry occurs, array-valued; on success the returned
sequence is exactly the raw ordered content of that features array. -/
theorem envelope_success_characterization (entries : List (String × JsonValue)) :
    ((∃ fs, FeatureCollectionVisitor.visit_map entries = Except.ok fs) ↔
      envelopeOk entries) ∧
    (∀ fs, FeatureCollectionVisitor.visit_map entries = Except.ok fs →
      ∀ kv ∈ entries, kv.1 = "features" → kv.2 = JsonValue.array fs) := by
  constructor
  · rw [show FeatureCollectionVisitor.visit_map entries =
        featureCollectionLoop false none entries from rfl]
    rw [fcLoop_ok_iff entries false none]
    unfold fcLoopOk envelopeOk
    simp
  · intro fs h kv hmem hkey
    exact fcLoop_features_value entries false none fs h kv hmem hkey

/-- Witness for C2: the canonical minimal envelope satisfies the spec
condition and decodes successfully. -/
theorem envelope_success_characterization_witness :
    ∃ fs, FeatureCollectionVisitor.visit_map
      [("type", JsonValue.string "FeatureCollection"),
       ("features", JsonValue.array [])] = Except.ok fs :=
  (envelope_success_characterization
    [("type", JsonValue.string "FeatureCollection"),
     ("features", JsonValue.array [])]).1.mpr (by unfold envelopeOk; decide)

/-- The envelope success condition only depends on the multiset of
entries. -/
theorem fcLoopOk_of_perm (hasType : Bool) (features : Option (List JsonValue))
    (l1 l2 : List (String × JsonValue)) (h : List.Perm l1 l2)
    (hok : fcLoopOk hasType features l1) : fcLoopOk hasType features l2 := by
  obtain ⟨h1, h2, h3, h4, h5⟩ := hok
  refine ⟨fun kv hm => h1 kv (h.mem_iff.mpr hm),
          fun kv hm hk => h2 kv (h.mem_iff.mpr hm) hk, ?_,
          fun kv hm hk => h4 kv (h.mem_iff.mpr hm) hk, ?_⟩
  · rcases h3 with ht | ⟨kv, hm, hk⟩
    · exact Or.inl ht
    · exact Or.inr ⟨kv, h.mem_iff.mp hm, hk⟩
  · rw [← h.countP_eq]
    exact h5

/-- Claim C7: the envelope decoder is order-insensitive: permuting the top-level
entries preserves success and failure, and two successful runs on
permuted inputs return the same feature array (the content of the unique
features entry). -/
theorem envelope_order_insensitive (entries1 entries2 : List (String × JsonValue))
    (hperm : List.Perm entries1 entries2) :
    ((∃ fs, FeatureCollectionVisitor.visit_map entries1 = Except.ok fs) ↔
      (∃ fs, FeatureCollectionVisitor.visit_map entries2 = Except.ok fs)) ∧
    (∀ fs1 fs2, FeatureCollectionVisitor.visit_map entries1 = Except.ok fs1 →
      FeatureCollectionVisitor.visit_map entries2 = Except.ok fs2 → fs1 = fs2) := by
  constructor
  · rw [show FeatureCollectionVisitor.visit_map entries1 =
        featureCollectionLoop false none entries1 from rfl]
    rw [show FeatureCollectionVisitor.visit_map entries2 =
        featureCollectionLoop false none entries2 from rfl]
    rw [fcLoop_ok_iff entries1 false none, fcLoop_ok_iff entries2 false none]
    exact ⟨fcLoopOk_of_perm false none entries1 entries2 hperm,
           fcLoopOk_of_perm false none entries2 entries1 hperm.symm⟩
  · intro fs1 fs2 h1 h2
    have hok : fcLoopOk false none entries1 :=
      (fcLoop_ok_iff entries1 false none).mp ⟨fs1, h1⟩
    obtain ⟨-, -, -, -, hcount⟩ := hok
    have hpos : 0 < entries1.countP (fun kv => kv.1 == "features") := by
      simp at hcount
      omega
    obtain ⟨kv, hmem, hkv⟩ := List.countP_pos_iff.mp hpos
    have hkey : kv.1 = "features" := by simpa using hkv
    have hv1 := fcLoop_features_value entries1 false none fs1 h1 kv hmem hkey
    have hv2 := fcLoop_features_value entries2 false none fs2 h2 kv
      (hperm.mem_iff.mp hmem) hkey
    rw [hv1] at hv2
    injection hv2

/-- Witness for C7: swapping the two top-level entries preserves the
success of the envelope decode. -/
theorem envelope_order_insensitive_witness :
    (∃ fs, FeatureCollectionVisitor.visit_map
      [("features", JsonValue.array []),
       ("type", JsonValue.string "FeatureCollection")] = Except.ok fs) ↔
    (∃ fs, FeatureCollectionVisitor.visit_map
      [("type", JsonValue.string "FeatureCollection"),
       ("features", JsonValue.array [])] = Except.ok fs) :=
  (envelope_order_insensitive
    [("features", JsonValue.array []), ("type", JsonValue.string "FeatureCollection")]
    [("type", JsonValue.string "FeatureCollection"), ("features", JsonValue.array [])]
    (List.Perm.swap _ _ _)).1

/-! Shape of the per-feature field map. -/

/-- Membership after an insert: the element was already present or is the
inserted binding. -/
theorem mem_insertFM (m : FieldMap) (k : String) (v : JsonValue)
    (e : String × JsonValue) (h : e ∈ insertFM m k v) : e ∈ m ∨ e = (k, v) := by
  unfold insertFM at h
  split at h
  · obtain ⟨a, ha, hae⟩ := List.mem_map.mp h
    by_cases hk : (a.1 == k) = true
    · rw [if_pos hk] at hae
      exact Or.inr hae.symm
    · rw [if_neg hk] at hae
      exact Or.inl (hae ▸ ha)
  · rcases List.mem_append.mp h with hm | hs
    · exact Or.inl hm
    · exact Or.inr (List.mem_singleton.mp hs)

/-- The key list after an insert: unchanged when the key was bound,
extended by a fresh key otherwise. -/
theorem insertFM_map_fst (m : FieldMap) (k : String) (v : JsonValue) :
    (insertFM m k v).map Prod.fst = m.map Prod.fst ∨
    ((insertFM m k v).map Prod.fst = m.map Prod.fst ++ [k] ∧
      k ∉ m.map Prod.fst) := by
  unfold insertFM
  split
  · refine Or.inl ?_
    rw [List.map_map]
    refine List.map_congr_left ?_
    intro a _
    by_cases hk : (a.1 == k) = true
    · simp [Function.comp, hk]
      exact (eq_of_beq hk).symm
    · simp [Function.comp, hk]
  · next hany =>
    refine Or.inr ⟨by simp, ?_⟩
    intro hmem
    obtain ⟨a, ha, hak⟩ := List.mem_map.mp hmem
    exact hany (List.any_eq_true.mpr ⟨a, ha, beq_iff_eq.mpr hak⟩)

/-- Inserting preserves distinctness of the keys. -/
theorem nodup_keys_insertFM (m : FieldMap) (k : String) (v : JsonValue)
    (h : (m.map Prod.fst).Nodup) : ((insertFM m k v).map Prod.fst).Nodup := by
  rcases insertFM_map_fst m k v with heq | ⟨heq, hnot⟩
  · rw [heq]; exact h
  · rw [heq]
    refine List.Nodup.append h (List.nodup_singleton k) ?_
    intro x hx hx2
    rw [List.mem_singleton.mp hx2] at hx
    exact hnot hx

/-- Membership after flattening a properties object: the element was in
the map already or is one of the properties pairs. -/
theorem mem_flattenProperties (props : List (String × JsonValue)) :
    ∀ (m : FieldMap) (e : String × JsonValue),
      e ∈ flattenProperties m props → e ∈ m ∨ e ∈ props := by
  induction props with
  | nil =>
    intro m e h
    exact Or.inl h
  | cons p ps ih =>
    intro m e h
    have h2 : e ∈ flattenProperties (insertFM m p.1 p.2) ps := h
    rcases ih (insertFM m p.1 p.2) e h2 with hm | hp
    · rcases mem_insertFM m p.1 p.2 e hm with h1 | h1
      · exact Or.inl h1
      · refine Or.inr ?_
        rw [h1, Prod.mk.eta]
        exact List.mem_cons_self p ps
    · exact Or.inr (List.mem_cons_of_mem _ hp)

/-- Flattening preserves distinctness of the keys. -/
theorem nodup_keys_flattenProperties (props : List (String × JsonValue)) :
    ∀ m : FieldMap, (m.map Prod.fst).Nodup →
      ((flattenProperties m props).map Prod.fst).Nodup := by
  induction props with
  | nil => intro m h; exact h
  | cons p ps ih =>
    intro m h
    exact ih (insertFM m p.1 p.2) (nodup_keys_insertFM m p.1 p.2 h)

/-- The feature loop preserves distinctness of the field map keys. -/
theorem featureLoop_nodup_keys (entries : List (String × JsonValue)) :
    ∀ (b : Bool) (m : FieldMap) (b2 : Bool) (m2 : FieldMap),
      featureLoop b m entries = Except.ok (b2, m2) →
      (m.map Prod.fst).Nodup → (m2.map Prod.fst).Nodup := by
  induction entries with
  | nil =>
    intro b m b2 m2 h hm
    simp [featureLoop] at h
    rw [← h.2]
    exact hm
  | cons kv0 rest ih =>
    intro b m b2 m2 h hm
    obtain ⟨k, v⟩ := kv0
    by_cases hk : k = "type"
    · subst hk
      cases v with
      | string s =>
        by_cases hs : s = "Feature"
        · exact ih true m b2 m2 (by simpa [featureLoop, hs] using h) hm
        · simp [featureLoop, hs] at h
      | null => simp [featureLoop] at h
      | boolean c => simp [featureLoop] at h
      | number q => simp [featureLoop] at h
      | array xs => simp [featureLoop] at h
      | object o => simp [featureLoop] at h
    · by_cases hk2 : k = "geometry"
      · subst hk2
        cases v with
        | object o =>
          exact ih b (insertFM m "geometry" (JsonValue.object o)) b2 m2
            (by simpa [featureLoop] using h)
            (nodup_keys_insertFM m "geometry" (JsonValue.object o) hm)
        | null => simp [featureLoop] at h
        | boolean c => simp [featureLoop] at h
        | number q => simp [featureLoop] at h
        | string s => simp [featureLoop] at h
        | array xs => simp [featureLoop] at h
      · by_cases hk3 : k = "properties"
        · subst hk3
          cases v with
          | object props =>
            exact ih b (flattenProperties m props) b2 m2
              (by simpa [featureLoop] using h)
              (nodup_keys_flattenProperties props m hm)
          | null => simp [featureLoop] at h
          | boolean c => simp [featureLoop] at h
          | number q => simp [featureLoop] at h
          | string s => simp [featureLoop] at h
          | array xs => simp [featureLoop] at h
        · simp [featureLoop, hk, hk2, hk3] at h

/-- Lifting the provenance statement over an additional leading entry. -/
theorem origin_lift (x : String × JsonValue) (rest : List (String × JsonValue))
    (e : String × JsonValue)
    (h : (e.1 = "geometry" ∧ (∃ g, e.2 = JsonValue.object g) ∧
          ("geometry", e.2) ∈ rest) ∨
      (∃ p, ("properties", JsonValue.object p) ∈ rest ∧ e ∈ p)) :
    (e.1 = "geometry" ∧ (∃ g, e.2 = JsonValue.object g) ∧
      ("geometry", e.2) ∈ x :: rest) ∨
    (∃ p, ("properties", JsonValue.object p) ∈ x :: rest ∧ e ∈ p) := by
  rcases h with ⟨h1, h2, h3⟩ | ⟨p, hp, hep⟩
  · exact Or.inl ⟨h1, h2, List.mem_cons_of_mem _ h3⟩
  · exact Or.inr ⟨p, List.mem_cons_of_mem _ hp, hep⟩

/-- Provenance invariant of the feature loop: every binding of the final
field map was already present, comes from a geometry entry of the
processed list, or is a pair of one of its properties objects. -/
theorem featureLoop_origin (entries : List (String × JsonValue)) :
    ∀ (b : Bool) (m : FieldMap) (b2 : Bool) (m2 : FieldMap),
      featureLoop b m entries = Except.ok (b2, m2) →
      ∀ e ∈ m2, e ∈ m ∨
        ((e.1 = "geometry" ∧ (∃ g, e.2 = JsonValue.object g) ∧
          ("geometry", e.2) ∈ entries) ∨
        (∃ p, ("properties", JsonValue.object p) ∈ entries ∧ e ∈ p)) := by
  induction entries with
  | nil =>
    intro b m b2 m2 h e he
    simp [featureLoop] at h
    rw [← h.2] at he
    exact Or.inl he
  | cons kv0 rest ih =>
    intro b m b2 m2 h e he
    obtain ⟨k, v⟩ := kv0
    by_cases hk : k = "type"
    · subst hk
      cases v with
      | string s =>
        by_cases hs : s = "Feature"
        · rcases ih true m b2 m2 (by simpa [featureLoop, hs] using h) e he with hm | ho
          · exact Or.inl hm
          · exact Or.inr (origin_lift _ rest e ho)
        · simp [featureLoop, hs] at h
      | null => simp [featureLoop] at h
      | boolean c => simp [featureLoop] at h
      | number q => simp [featureLoop] at h
      | array xs => simp [featureLoop] at h
      | object o => simp [featureLoop] at h
    · by_cases hk2 : k = "geometry"
      · subst hk2
        cases v with
        | object o =>
          rcases ih b (insertFM m "geometry" (JsonValue.object o)) b2 m2
              (by simpa [featureLoop] using h) e he with hm | ho
          · rcases mem_insertFM m "geometry" (JsonValue.object o) e hm with h1 | h1
            · exact Or.inl h1
            · refine Or.inr (Or.inl ?_)
              rw [h1]
              exact ⟨rfl, ⟨o, rfl⟩, List.mem_cons_self _ _⟩
          · exact Or.inr (origin_lift _ rest e ho)
        | null => simp [featureLoop] at h
        | boolean c => simp [featureLoop] at h
        | number q => simp [featureLoop] at h
        | string s => simp [featureLoop] at h
        | array xs => simp [featureLoop] at h
      · by_cases hk3 : k = "properties"
        · subst hk3
          cases v with
          | object props =>
            rcases ih b (flattenProperties m props) b2 m2
                (by simpa [featureLoop] using h) e he with hm | ho
            · rcases mem_flattenProperties props m e hm with h1 | h1
              · exact Or.inl h1
              · exact Or.inr (Or.inr ⟨props, List.mem_cons_self _ _, h1⟩)
            · exact Or.inr (origin_lift _ rest e ho)
          | null => simp [featureLoop] at h
          | boolean c => simp [featureLoop] at h
          | number q => simp [featureLoop] at h
          | string s => simp [featureLoop] at h
          | array xs => simp [featureLoop] at h
        · simp [featureLoop, hk, hk2, hk3] at h

/-- Claim C5 counterexample: a feature consisting of the sole entry
("type", "Feature") passes schema validation, yet the field map handed to
the decode holds no entry at all for the key "geometry", refuting the
claim that a successfully validated feature always yields exactly one
geometry entry. -/
theorem field_map_missing_geometry_cex :
    FeatureVisitor.visit_map (fun fm => Except.ok fm)
      [("type", JsonValue.string "Feature")] = FeatureOutcome.ok [] ∧
    List.countP (fun e => e.1 == "geometry") ([] : FieldMap) = 0 :=
  ⟨rfl, rfl⟩

/-- Claim C5 amended: on every successfully validated feature, the field map
handed to the decode of D holds at most one entry for the key "geometry",
and every entry either is an object-typed value coming from a "geometry"
entry of the feature or is a key/value pair copied from one of its
"properties" objects. -/
theorem field_map_shape (entries : List (String × JsonValue)) (m : FieldMap)
    (h : FeatureVisitor.visit_map (fun fm => Except.ok fm) entries =
      FeatureOutcome.ok m) :
    m.countP (fun e => e.1 == "geometry") ≤ 1 ∧
    ∀ e ∈ m,
      (e.1 = "geometry" ∧ (∃ g, e.2 = JsonValue.object g) ∧
        ("geometry", e.2) ∈ entries) ∨
      (∃ p, ("properties", JsonValue.object p) ∈ entries ∧ e ∈ p) := by
  have hloop : featureLoop false [] entries = Except.ok (true, m) := by
    unfold FeatureVisitor.visit_map at h
    rcases hfl : featureLoop false [] entries with e | bm
    · rw [hfl] at h
      simp at h
    · obtain ⟨b, m0⟩ := bm
      rw [hfl] at h
      cases b with
      | true =>
        simp [runDecode] at h
        subst h
        rfl
      | false => simp at h
  constructor
  · have hnodup : (m.map Prod.fst).Nodup :=
      featureLoop_nodup_keys entries false [] true m hloop (by simp)
    have hcnt : (m.map Prod.fst).count "geometry" ≤ 1 :=
      List.nodup_iff_count_le_one.mp hnodup "geometry"
    calc m.countP (fun e => e.1 == "geometry")
        = (m.map Prod.fst).countP (fun x => x == "geometry") := by
          rw [List.countP_map]
          rfl
      _ = (m.map Prod.fst).count "geometry" := rfl
      _ ≤ 1 := hcnt
  · intro e he
    rcases featureLoop_origin entries false [] true m hloop e he with h0 | hrest
    · exact absurd h0 (List.not_mem_nil e)
    · exact hrest

/-- Witness for C5 amended, at the canonical one-geometry feature: the
field map holds at most one geometry entry. -/
theorem field_map_shape_witness :
    List.countP (fun e => e.1 == "geometry")
      ([("geometry", JsonValue.object [])] : FieldMap) ≤ 1 :=
  (field_map_shape
    [("type", JsonValue.string "Feature"), ("geometry", JsonValue.object [])]
    [("geometry", JsonValue.object [])] rfl).1

/-- Claim C8: the per-element computation of the driver sequence is a pure
function of the buffered feature tree value: the produced elements are the
map of that function over the features array, so decoding the same feature
value twice yields equal outcomes, succeeding together or failing
together. -/
theorem feature_decode_repeatable {D : Type} (decodeD : FieldMap → Except String D)
    (entries : List (String × JsonValue)) (fs : List JsonValue)
    (outs : List (FeatureOutcome D))
    (hfc : FeatureCollectionVisitor.visit_map entries = Except.ok fs)
    (hdrv : deserialize_collection_features_from_reader decodeD
      (JsonValue.object entries) = Except.ok outs)
    (i j : Fin fs.length) (heq : fs.get i = fs.get j) :
    outs = fs.map (decodeFeatureValue decodeD) ∧
    decodeFeatureValue decodeD (fs.get i) = decodeFeatureValue decodeD (fs.get j) ∧
    ((∃ d, decodeFeatureValue decodeD (fs.get i) = FeatureOutcome.ok d) ↔
      (∃ d, decodeFeatureValue decodeD (fs.get j) = FeatureOutcome.ok d)) := by
  refine ⟨?_, ?_, ?_⟩
  · unfold deserialize_collection_features_from_reader at hdrv
    simp [hfc] at hdrv
    exact hdrv.symm
  · rw [heq]
  · rw [heq]

/-- Witness for C8: a two-feature collection repeating the same feature
value produces the mapped outcomes, equal at both positions. -/
theorem feature_decode_repeatable_witness :
    [FeatureOutcome.ok ([] : FieldMap), FeatureOutcome.ok ([] : FieldMap)] =
      ([JsonValue.object [("type", JsonValue.string "Feature")],
        JsonValue.object [("type", JsonValue.string "Feature")]]).map
        (decodeFeatureValue (fun fm => Except.ok fm)) :=
  (feature_decode_repeatable (fun fm => Except.ok fm)
    [("type", JsonValue.string "FeatureCollection"),
     ("features", JsonValue.array
       [JsonValue.object [("type", JsonValue.string "Feature")],
        JsonValue.object [("type", JsonValue.string "Feature")]])]
    [JsonValue.object [("type", JsonValue.string "Feature")],
     JsonValue.object [("type", JsonValue.string "Feature")]]
    [FeatureOutcome.ok [], FeatureOutcome.ok []]
    rfl rfl ⟨0, by decide⟩ ⟨1, by decide⟩ rfl).1
